import Mathlib

/-!
Verification development for the fde-job-tracker aggregation and enrichment
pipeline (backend/job_scraper.py, backend/skill_extractor.py,
backend/llm_skill_extractor.py).

The Python code is shallowly embedded: pure functions become Lean functions,
the process-wide skill cache becomes explicit state passing, fallible calls
return Except.  External collaborators that are not part of this repository
(the regex engine behind precompiled heading patterns, json.loads, the md5
digest, and the LLM provider clients) are taken as function parameters; every
algorithm of the repository itself is translated line by line from the source.
-/

set_option maxRecDepth 40000

namespace FdeTracker

/-! ## Python string primitives used by the embedded code -/

/-- Python `c.isalnum() or c == "_"` for ASCII, the character class of `\w`
used by `re` word boundaries on the (ASCII) texts this code handles. -/
def isWordChar (c : Char) : Bool := c.isAlphanum || c = '_'

/-- Python `s.lower()` (ASCII case mapping, the only case the pipeline's
inputs exercise). -/
def pyLower (s : String) : String := String.mk (s.data.map Char.toLower)

/-- Python `needle in hay` substring containment. -/
def strIn (needle hay : String) : Bool := go hay.data where
  go : List Char → Bool
  | [] => needle.data.isEmpty
  | c :: cs => needle.data.isPrefixOf (c :: cs) || go cs

/-- Python `s.rstrip("/")`: remove every trailing slash. -/
def rstripSlash (s : String) : String :=
  String.mk ((s.data.reverse.dropWhile (fun c => c = '/')).reverse)

/-! ## JobListing (backend/scrapers/base_scraper.py) -/

/-- The standardized listing shape produced by every source adapter
(base_scraper.JobListing); only the fields the verified pipeline reads. -/
structure JobListing where
  title : String
  company : String
  location : String
  job_url : String
  source : String
  deriving DecidableEq, Repr

/-! ## Deduplication (FDEJobScraper._deduplicate_jobs, job_scraper.py 125-137) -/

/-- URL normalization used by dedup: `job.job_url.lower().rstrip("/")`. -/
def normalizeUrl (u : String) : String := rstripSlash (pyLower u)

/-- The loop of `_deduplicate_jobs` with its `seen_urls` set made explicit. -/
def dedupGo : List JobListing → List String → List JobListing
  | [], _ => []
  | j :: rest, seen =>
    let url := normalizeUrl j.job_url
    if url ∈ seen then dedupGo rest seen
    else j :: dedupGo rest (url :: seen)

/-- `FDEJobScraper._deduplicate_jobs`: keep the first listing per normalized
URL, in discovery order. -/
def deduplicateJobs (jobs : List JobListing) : List JobListing :=
  dedupGo jobs []

/-! ### Dedup lemmas -/

theorem dedupGo_sublist (l : List JobListing) (seen : List String) :
    (dedupGo l seen).Sublist l := by
  induction l generalizing seen with
  | nil => simp [dedupGo]
  | cons j rest ih =>
    simp only [dedupGo]
    split
    · exact (ih seen).cons j
    · exact (ih _).cons₂ j

theorem dedupGo_nodup_and_disjoint (l : List JobListing) (seen : List String) :
    ((dedupGo l seen).map (fun j => normalizeUrl j.job_url)).Nodup ∧
      ∀ j ∈ dedupGo l seen, normalizeUrl j.job_url ∉ seen := by
  induction l generalizing seen with
  | nil => simp [dedupGo]
  | cons j rest ih =>
    simp only [dedupGo]
    split
    · rename_i hmem
      exact ⟨(ih seen).1, (ih seen).2⟩
    · rename_i hmem
      obtain ⟨hnd, hdisj⟩ := ih (normalizeUrl j.job_url :: seen)
      refine ⟨?_, ?_⟩
      · simp only [List.map_cons, List.nodup_cons]
        refine ⟨?_, hnd⟩
        intro hcontra
        obtain ⟨j', hj', hurl⟩ := List.mem_map.mp hcontra
        exact (hdisj j' hj') (by simp [hurl])
      · intro j' hj'
        rcases List.mem_cons.mp hj' with hj' | hj'
        · simpa [hj'] using hmem
        · have := hdisj j' hj'
          intro hc
          exact this (List.mem_cons_of_mem _ hc)

theorem dedupGo_covers (l : List JobListing) (seen : List String) :
    ∀ j ∈ l, normalizeUrl j.job_url ∈ seen ∨
      ∃ j' ∈ dedupGo l seen, normalizeUrl j'.job_url = normalizeUrl j.job_url := by
  induction l generalizing seen with
  | nil => simp
  | cons k rest ih =>
    intro j hj
    simp only [dedupGo]
    rcases List.mem_cons.mp hj with hj | hj
    · subst hj
      by_cases hmem : normalizeUrl j.job_url ∈ seen
      · exact Or.inl hmem
      · refine Or.inr ?_
        simp only [if_neg hmem]
        exact ⟨j, by simp, rfl⟩
    · by_cases hmem : normalizeUrl k.job_url ∈ seen
      · simp only [if_pos hmem]
        exact ih seen j hj
      · simp only [if_neg hmem]
        rcases ih (normalizeUrl k.job_url :: seen) j hj with h | ⟨j', hj', he⟩
        · rcases List.mem_cons.mp h with h | h
          · exact Or.inr ⟨k, by simp, h.symm⟩
          · exact Or.inl h
        · exact Or.inr ⟨j', List.mem_cons_of_mem _ hj', he⟩

theorem dedupGo_first_occurrence (l : List JobListing) (seen : List String) :
    ∀ j' ∈ dedupGo l seen, ∃ pre post, l = pre ++ j' :: post ∧
      ∀ k ∈ pre, normalizeUrl k.job_url ∈ seen ∨
        normalizeUrl k.job_url ≠ normalizeUrl j'.job_url := by
  induction l generalizing seen with
  | nil => simp [dedupGo]
  | cons j rest ih =>
    intro j' hj'
    simp only [dedupGo] at hj'
    by_cases hmem : normalizeUrl j.job_url ∈ seen
    · rw [if_pos hmem] at hj'
      obtain ⟨pre, post, hsplit, hpre⟩ := ih seen j' hj'
      exact ⟨j :: pre, post, by simp [hsplit], by
        intro k hk
        rcases List.mem_cons.mp hk with hk | hk
        · exact Or.inl (hk ▸ hmem)
        · exact hpre k hk⟩
    · rw [if_neg hmem] at hj'
      rcases List.mem_cons.mp hj' with hj' | hj'
      · exact ⟨[], rest, by simp [hj'], by simp⟩
      · obtain ⟨pre, post, hsplit, hpre⟩ := ih _ j' hj'
        have hne : normalizeUrl j'.job_url ≠ normalizeUrl j.job_url := by
          have := (dedupGo_nodup_and_disjoint rest
            (normalizeUrl j.job_url :: seen)).2 j' hj'
          intro hc
          exact this (by simp [hc])
        refine ⟨j :: pre, post, by simp [hsplit], ?_⟩
        intro k hk
        rcases List.mem_cons.mp hk with hk | hk
        · exact Or.inr (by rw [hk]; exact fun hc => hne hc.symm)
        · rcases hpre k hk with h | h
          · rcases List.mem_cons.mp h with h | h
            · exact Or.inr (fun hc => hne (h ▸ hc).symm)
            · exact Or.inl h
          · exact Or.inr h

/-- Claim C1: deduplication keeps exactly one listing per normalized URL
(lowercase, trailing slashes stripped), keeps the first occurrence in
discovery order, and preserves the relative order of survivors: the output is
a sublist of the input, its normalized URLs are pairwise distinct, every
input listing is represented by a survivor with the same normalized URL, and
every survivor is the earliest listing of its normalized URL; in particular
for two listings whose URLs agree after normalization, only the first
survives dedup of the pair. -/
theorem deduplicate_jobs_spec (jobs : List JobListing) :
    (deduplicateJobs jobs).Sublist jobs ∧
    ((deduplicateJobs jobs).map (fun j => normalizeUrl j.job_url)).Nodup ∧
    (∀ j ∈ jobs, ∃ j' ∈ deduplicateJobs jobs,
        normalizeUrl j'.job_url = normalizeUrl j.job_url) ∧
    (∀ j' ∈ deduplicateJobs jobs, ∃ pre post, jobs = pre ++ j' :: post ∧
        ∀ k ∈ pre, normalizeUrl k.job_url ≠ normalizeUrl j'.job_url) ∧
    (∀ a b : JobListing, normalizeUrl a.job_url = normalizeUrl b.job_url →
        deduplicateJobs [a, b] = [a]) := by
  refine ⟨dedupGo_sublist jobs [], (dedupGo_nodup_and_disjoint jobs []).1, ?_, ?_, ?_⟩
  · intro j hj
    rcases dedupGo_covers jobs [] j hj with h | h
    · simp at h
    · exact h
  · intro j' hj'
    obtain ⟨pre, post, hsplit, hpre⟩ := dedupGo_first_occurrence jobs [] j' hj'
    refine ⟨pre, post, hsplit, ?_⟩
    intro k hk
    rcases hpre k hk with h | h
    · simp at h
    · exact h
  · intro a b hab
    simp [deduplicateJobs, dedupGo, hab]

/-- Witness for C1 at a concrete input: two listings whose URLs differ only by
case and a trailing slash are treated as one and the earlier survives. -/
theorem deduplicate_jobs_spec_witness :
    deduplicateJobs
      [⟨"FDE", "Acme", "SF", "https://Jobs.example.com/42/", "indeed"⟩,
       ⟨"FDE", "Acme", "SF", "https://jobs.example.com/42", "linkedin"⟩] =
      [⟨"FDE", "Acme", "SF", "https://Jobs.example.com/42/", "indeed"⟩] :=
  (deduplicate_jobs_spec
      [⟨"FDE", "Acme", "SF", "https://Jobs.example.com/42/", "indeed"⟩,
       ⟨"FDE", "Acme", "SF", "https://jobs.example.com/42", "linkedin"⟩]).2.2.2.2
    ⟨"FDE", "Acme", "SF", "https://Jobs.example.com/42/", "indeed"⟩
    ⟨"FDE", "Acme", "SF", "https://jobs.example.com/42", "linkedin"⟩
    (by decide)

/-! ## Orchestrator run (FDEJobScraper.run_daily_scrape / _run_scraper,
job_scraper.py 40-123)

A source adapter invocation is modelled by its name together with the outcome
of `scraper.search_jobs` — either a listing list or a raised exception
(`Except.error msg`).  The thread pool only evaluates these outcomes; the
merge order of `as_completed` is the order of the given list, and the claims
below hold for every order because they are quantified over arbitrary source
lists.  Persistence (`_process_and_save_jobs` and the run log) is an external
collaborator per the spec and is not part of the summary fields verified
here. -/

/-- Per-source entry of `scraper_results` (job_scraper.py 74-82). -/
structure SourceOutcome where
  found : Nat
  errors : List String
  deriving DecidableEq, Repr

/-- The summary fields of `run_daily_scrape` returned at job_scraper.py
97-102 that concern listings and per-source results. -/
structure RunSummary where
  totalFound : Nat
  uniqueJobs : Nat
  scraperResults : List (String × SourceOutcome)
  deriving DecidableEq, Repr

/-- `FDEJobScraper._run_scraper` (job_scraper.py 104-123): every exception
raised by `scraper.search_jobs` is caught and turned into an empty listing
list, so the wrapped call never raises. -/
def runScraper (r : Except String (List JobListing)) : List JobListing :=
  match r with
  | .ok jobs => jobs
  | .error _ => []

/-- First-occurrence lookup in an insertion-ordered association list
(the shape of a Python dict). -/
def lookupAssoc {α : Type} : List (String × α) → String → Option α
  | [], _ => none
  | (k, v) :: rest, key => if k = key then some v else lookupAssoc rest key

/-- The `scraper_results` update of the success path (job_scraper.py 74-76):
create the entry on first sight, then `found += len(jobs)`.  Because
`_run_scraper` swallows every adapter exception, `future.result()` never
raises and the error-recording branch at job_scraper.py 78-82 is unreachable
for adapter search failures, so every entry keeps `errors = []`. -/
def addFound : List (String × SourceOutcome) → String → Nat →
    List (String × SourceOutcome)
  | [], name, n => [(name, ⟨n, []⟩)]
  | (k, o) :: rest, name, n =>
    if k = name then (k, ⟨o.found + n, o.errors⟩) :: rest
    else (k, o) :: addFound rest name n

/-- The collection loop of `run_daily_scrape` (job_scraper.py 68-82) with its
`all_jobs` and `scraper_results` accumulators explicit. -/
def collectGo : List (String × Except String (List JobListing)) →
    List JobListing → List (String × SourceOutcome) →
    List JobListing × List (String × SourceOutcome)
  | [], jobs, results => (jobs, results)
  | (name, r) :: rest, jobs, results =>
    collectGo rest (jobs ++ runScraper r) (addFound results name (runScraper r).length)

/-- `FDEJobScraper.run_daily_scrape` restricted to the listing-level summary:
collect every source outcome, dedup, and report the counts. -/
def runDailyScrape (sources : List (String × Except String (List JobListing))) :
    RunSummary :=
  let collected := collectGo sources [] []
  { totalFound := collected.1.length
    uniqueJobs := (deduplicateJobs collected.1).length
    scraperResults := collected.2 }

/-! ### Orchestrator lemmas -/

theorem collectGo_fst (l : List (String × Except String (List JobListing)))
    (jobs : List JobListing) (results : List (String × SourceOutcome)) :
    (collectGo l jobs results).1 = jobs ++ (l.map (fun s => runScraper s.2)).flatten := by
  induction l generalizing jobs results with
  | nil => simp [collectGo]
  | cons s rest ih =>
    obtain ⟨name, r⟩ := s
    simp [collectGo, ih]

theorem lookupAssoc_addFound (res : List (String × SourceOutcome))
    (k name : String) (n : Nat) :
    lookupAssoc (addFound res k n) name =
      if k = name then
        (match lookupAssoc res name with
          | some o => some ⟨o.found + n, o.errors⟩
          | none => some ⟨n, []⟩)
      else lookupAssoc res name := by
  induction res with
  | nil =>
    by_cases h : k = name <;> simp [addFound, lookupAssoc, h]
  | cons p rest ih =>
    obtain ⟨k', o⟩ := p
    by_cases hk : k' = k
    · subst hk
      by_cases h : k' = name <;> simp [addFound, lookupAssoc, h]
    · by_cases h : k' = name
      · subst h
        have : ¬ k = k' := fun hc => hk hc.symm
        simp [addFound, lookupAssoc, hk, this]
      · simp [addFound, lookupAssoc, hk, h, ih]

theorem collectGo_lookup_fresh
    (l : List (String × Except String (List JobListing)))
    (jobs : List JobListing) (results : List (String × SourceOutcome))
    (name : String) (h : name ∉ l.map Prod.fst) :
    lookupAssoc (collectGo l jobs results).2 name = lookupAssoc results name := by
  induction l generalizing jobs results with
  | nil => simp [collectGo]
  | cons s rest ih =>
    obtain ⟨k, r⟩ := s
    simp only [List.map_cons, List.mem_cons] at h
    push_neg at h
    simp only [collectGo]
    rw [ih _ _ h.2, lookupAssoc_addFound, if_neg (Ne.symm h.1)]

theorem collectGo_append (l1 l2 : List (String × Except String (List JobListing)))
    (jobs : List JobListing) (results : List (String × SourceOutcome)) :
    collectGo (l1 ++ l2) jobs results =
      collectGo l2 (collectGo l1 jobs results).1 (collectGo l1 jobs results).2 := by
  induction l1 generalizing jobs results with
  | nil => simp [collectGo]
  | cons s rest ih =>
    obtain ⟨k, r⟩ := s
    simp [collectGo, ih]

/-- Claim C2 (amended): an adapter whose search raises contributes zero
listings, the run still completes with a summary whose total and unique
listing counts are exactly those of the same run without the failing adapter,
and the failing adapter's entry in the summary reports `found = 0` with an
EMPTY error list — the exception is swallowed inside `_run_scraper` (only
logged), so no error string is recorded in the run summary. -/
theorem run_error_isolation
    (pre post : List (String × Except String (List JobListing)))
    (name e : String)
    (hfresh : name ∉ (pre ++ post).map Prod.fst) :
    runScraper (.error e) = [] ∧
    (runDailyScrape (pre ++ (name, .error e) :: post)).totalFound =
      (runDailyScrape (pre ++ post)).totalFound ∧
    (runDailyScrape (pre ++ (name, .error e) :: post)).uniqueJobs =
      (runDailyScrape (pre ++ post)).uniqueJobs ∧
    lookupAssoc (runDailyScrape (pre ++ (name, .error e) :: post)).scraperResults
      name = some ⟨0, []⟩ := by
  simp only [List.map_append, List.mem_append] at hfresh
  push_neg at hfresh
  have hjobs : (collectGo (pre ++ (name, .error e) :: post) [] []).1 =
      (collectGo (pre ++ post) [] []).1 := by
    rw [collectGo_fst, collectGo_fst]
    simp [runScraper]
  refine ⟨rfl, ?_, ?_, ?_⟩
  · simp only [runDailyScrape, hjobs]
  · simp only [runDailyScrape, hjobs]
  · simp only [runDailyScrape]
    rw [collectGo_append]
    simp only [collectGo]
    rw [collectGo_lookup_fresh _ _ _ _ hfresh.2, lookupAssoc_addFound, if_pos rfl]
    have hnone : lookupAssoc (collectGo pre [] []).2 name = none := by
      rw [collectGo_lookup_fresh _ _ _ _ hfresh.1]
      rfl
    rw [hnone]
    rfl

/-- Witness for the amended C2 at a concrete run: one healthy source and one
raising source. -/
theorem run_error_isolation_witness :
    runScraper (.error "boom") = [] ∧
    (runDailyScrape
      [("greenhouse", .ok [⟨"FDE", "Acme", "SF", "https://a.example/1", "greenhouse"⟩]),
       ("indeed", .error "boom")]).totalFound =
      (runDailyScrape
        [("greenhouse", .ok [⟨"FDE", "Acme", "SF", "https://a.example/1", "greenhouse"⟩])]).totalFound ∧
    (runDailyScrape
      [("greenhouse", .ok [⟨"FDE", "Acme", "SF", "https://a.example/1", "greenhouse"⟩]),
       ("indeed", .error "boom")]).uniqueJobs =
      (runDailyScrape
        [("greenhouse", .ok [⟨"FDE", "Acme", "SF", "https://a.example/1", "greenhouse"⟩])]).uniqueJobs ∧
    lookupAssoc (runDailyScrape
      [("greenhouse", .ok [⟨"FDE", "Acme", "SF", "https://a.example/1", "greenhouse"⟩]),
       ("indeed", .error "boom")]).scraperResults "indeed" = some ⟨0, []⟩ :=
  run_error_isolation
    [("greenhouse", .ok [⟨"FDE", "Acme", "SF", "https://a.example/1", "greenhouse"⟩])]
    [] "indeed" "boom" (by decide)

/-- Counterexample to C2 as stated: in a run where the "indeed" adapter
raises "boom", the run summary records "indeed" with found 0 and an EMPTY
errors list — the raised error string appears nowhere in the summary,
contradicting "has that error recorded under that adapter's name in the run
summary". -/
theorem run_error_not_recorded :
    (runDailyScrape
      [("greenhouse", .ok [⟨"FDE", "Acme", "SF", "https://a.example/1", "greenhouse"⟩]),
       ("indeed", .error "boom")]).scraperResults =
      [("greenhouse", ⟨1, []⟩), ("indeed", ⟨0, []⟩)] := by
  rfl

/-! ## LLM skill extractor (backend/llm_skill_extractor.py)

`LLMSkillExtractor.extract_skills` is embedded with the module-level
`_skill_cache` as explicit state and with its external collaborators as
parameters: `md5` stands for `hashlib.md5(...).hexdigest()`, `parse` for
`json.loads`, and `gem`/`anth` for the configured provider clients, each of
which either returns response text or raises (`Except.error`).  The returned
triple is (result, cache after the call, number of provider invocations
issued during the call). -/

/-- More Python string primitives, written over `String.data` so that every
definition evaluates by kernel reduction. -/
def pyStrip (s : String) : String :=
  String.mk (((s.data.dropWhile Char.isWhitespace).reverse.dropWhile
    Char.isWhitespace).reverse)

/-- Python `s[:n]` for a nonnegative `n`. -/
def pyTake (s : String) (n : Nat) : String := String.mk (s.data.take n)

/-- Python `s.startswith(p)`. -/
def pyStartsWith (s p : String) : Bool := p.data.isPrefixOf s.data

/-- Python `s.split("\n")`. -/
def pySplitNl (s : String) : List String := go s.data [] where
  go : List Char → List Char → List String
  | [], cur => [String.mk cur.reverse]
  | c :: cs, cur =>
    if c = '\n' then String.mk cur.reverse :: go cs [] else go cs (c :: cur)

/-- Python `"\n".join(xs)`. -/
def joinNl : List String → String
  | [] => ""
  | [x] => x
  | x :: xs => x ++ "\n" ++ joinNl xs

/-- Python `s.find(c)` for a single character: first index or -1. -/
def pyFindChar (s : String) (c : Char) : Int :=
  match s.data.findIdx? (fun d => d = c) with
  | some i => (i : Int)
  | none => -1

/-- Python `s.rfind(c)` for a single character: last index or -1. -/
def pyRFindChar (s : String) (c : Char) : Int :=
  match s.data.reverse.findIdx? (fun d => d = c) with
  | some i => ((s.data.length - 1 - i : Nat) : Int)
  | none => -1

/-- Python `s[a:b]` for `0 ≤ a ≤ b`. -/
def pySlice (s : String) (a b : Nat) : String :=
  String.mk ((s.data.drop a).take (b - a))

/-- A category-to-skills mapping as the Python code passes it around: an
insertion-ordered dict from category name to list of skill strings. -/
abbrev SkillMap := List (String × List String)

/-- Key order of `SKILL_CATEGORIES` (llm_skill_extractor.py 46-57), the
categories of the LLM path. -/
def llmCategoryNames : List String :=
  ["ai_ml", "backend", "frontend", "cloud", "databases", "tools",
   "soft_skills", "fde_specific", "data_pipelines", "other"]

/-- `{cat: [] for cat in SKILL_CATEGORIES.keys()}`: the all-empty mapping
returned on every failure of the LLM path. -/
def emptyLLMMap : SkillMap := llmCategoryNames.map (fun c => (c, []))

/-- The process-wide `_skill_cache` dict (llm_skill_extractor.py 20), as
insertion-ordered key/value pairs. -/
abbrev SkillCache := List (String × SkillMap)

/-- `MAX_CACHE_SIZE` (llm_skill_extractor.py 21). -/
def MAX_CACHE_SIZE : Nat := 500

/-- Which provider is the active model (llm_skill_extractor.py 98-105). -/
inductive LLMModel where
  | gemini
  | claude
  deriving DecidableEq, Repr

/-- The extractor configuration bits `extract_skills` branches on. -/
structure LLMConfig where
  useCache : Bool
  activeModel : Option LLMModel
  deriving DecidableEq, Repr

/-- `LLMSkillExtractor._get_cache_key`: md5 hex digest of the first 2000
characters of the text (the digest function is the abstract parameter). -/
def getCacheKey (md5 : String → String) (text : String) : String :=
  md5 (pyTake text 2000)

/-- `LLMSkillExtractor._get_from_cache` (llm_skill_extractor.py 111-116). -/
def getFromCache (cfg : LLMConfig) (md5 : String → String)
    (cache : SkillCache) (text : String) : Option SkillMap :=
  if cfg.useCache then lookupAssoc cache (getCacheKey md5 text) else none

/-- Python dict assignment `d[k] = v`: replace in place, else append. -/
def updateOrAppend {α : Type} : List (String × α) → String → α →
    List (String × α)
  | [], k, v => [(k, v)]
  | (k', v') :: rest, k, v =>
    if k' = k then (k', v) :: rest else (k', v') :: updateOrAppend rest k v

/-- `LLMSkillExtractor._save_to_cache` (llm_skill_extractor.py 118-129): when
the cache has reached `MAX_CACHE_SIZE`, delete the first (oldest-inserted)
100 keys, then store under the fingerprint of the text. -/
def saveToCache (cfg : LLMConfig) (md5 : String → String)
    (cache : SkillCache) (text : String) (skills : SkillMap) : SkillCache :=
  if cfg.useCache then
    let trimmed := if MAX_CACHE_SIZE ≤ cache.length then cache.drop 100 else cache
    updateOrAppend trimmed (getCacheKey md5 text) skills
  else cache

/-! ### JSON values (the shape `json.loads` hands back) -/

/-- A parsed JSON value; `json.loads` itself is external (a parameter), the
embedded code only inspects its result with `in`, indexing and
`isinstance(..., list)`. -/
inductive JValue where
  | jnull : JValue
  | jbool : Bool → JValue
  | jnum : Int → JValue
  | jstr : String → JValue
  | jarr : List JValue → JValue
  | jobj : List (String × JValue) → JValue

/-- Python `category in skills` (llm_skill_extractor.py 215): key membership
for a dict, equality membership for a list, substring test for a string, and
a TypeError (caught by the outer handler) for every other value. -/
def pyContainsKey (v : JValue) (key : String) : Except Unit Bool :=
  match v with
  | .jobj fields => .ok (fields.any (fun p => p.1 == key))
  | .jarr xs => .ok (xs.any (fun x => match x with | .jstr s => s == key | _ => false))
  | .jstr s => .ok (strIn key s)
  | _ => .error ()

/-- Python `skills[category]` (llm_skill_extractor.py 215): dict lookup;
everything else raises (string/list indices cannot be strings). -/
def pyIndexKey (v : JValue) (key : String) : Except Unit JValue :=
  match v with
  | .jobj fields =>
    match lookupAssoc fields key with
    | some x => .ok x
    | none => .error ()
  | _ => .error ()

/-- The per-category entry loop (llm_skill_extractor.py 217-223): lowercase,
strip, drop empties, dedup preserving order; a non-string entry raises
(AttributeError on `.lower()`), which the outer handler turns into the
all-empty result. -/
def normalizeEntries : List JValue → List String → Except Unit (List String)
  | [], acc => .ok acc.reverse
  | .jstr s :: rest, acc =>
    let t := pyStrip (pyLower s)
    if t ≠ "" ∧ ¬ acc.contains t then normalizeEntries rest (t :: acc)
    else normalizeEntries rest acc
  | _ :: _, _ => .error ()

/-- One iteration of the normalization loop (llm_skill_extractor.py
214-225): a category key that is present with a list value is normalized,
anything else yields `[]` for that category. -/
def normalizeCategory (skills : JValue) (cat : String) : Except Unit (List String) :=
  match pyContainsKey skills cat with
  | .error e => .error e
  | .ok present =>
    if present then
      match pyIndexKey skills cat with
      | .error e => .error e
      | .ok (.jarr xs) => normalizeEntries xs []
      | .ok _ => .ok []
    else .ok []

/-- The full normalization loop over the category list. -/
def normalizeSkills (v : JValue) : List String → Except Unit SkillMap
  | [] => .ok []
  | cat :: rest =>
    match normalizeCategory v cat with
    | .error e => .error e
    | .ok xs =>
      match normalizeSkills v rest with
      | .error e => .error e
      | .ok m => .ok ((cat, xs) :: m)

/-- Response cleanup before `json.loads` (llm_skill_extractor.py 193-208):
strip, unwrap a markdown code fence, and otherwise slice from the first
opening to the last closing brace. -/
def preprocessContent (content : String) : String :=
  let c := pyStrip content
  let c :=
    if pyStartsWith c "```" then
      let lines := pySplitNl c
      let isClosedFence : Bool :=
        match lines.getLast? with
        | some l => pyStrip l == "```"
        | none => false
      let body := if isClosedFence then (lines.drop 1).dropLast else lines.drop 1
      pyStrip (joinNl body)
    else c
  if pyStartsWith c "\x7b" then c
  else
    let start := pyFindChar c '\x7b'
    let stop := pyRFindChar c '\x7d' + 1
    if start ≠ -1 ∧ start < stop then pySlice c start.toNat stop.toNat else c

/-- The provider block of `extract_skills` (llm_skill_extractor.py 172-186):
primary model first; if it raises, the `except` branch tries the other
configured client, and an exception escaping that fallback propagates to the
outer handler (`Except.error`).  The second component counts provider
invocations issued. -/
def attemptProviders (cfg : LLMConfig)
    (gem anth : Option (String → Except String String)) (text : String) :
    Except Unit (Option String) × Nat :=
  match cfg.activeModel, gem with
  | some .gemini, some g =>
    (match g text with
    | .ok s => (.ok (some s), 1)
    | .error _ =>
      match anth with
      | some a =>
        (match a text with
        | .ok s => (.ok (some s), 2)
        | .error _ => (.error (), 2))
      | none => (.ok none, 1))
  | am, gemOpt =>
    match anth with
    | some a =>
      (match a text with
      | .ok s => (.ok (some s), 1)
      | .error _ =>
        if am = some .gemini then
          (match a text with
          | .ok s => (.ok (some s), 2)
          | .error _ => (.error (), 2))
        else if am = some .claude then
          match gemOpt with
          | some g =>
            (match g text with
            | .ok s => (.ok (some s), 2)
            | .error _ => (.error (), 2))
          | none => (.ok none, 1)
        else (.ok none, 1))
    | none => (.ok none, 0)

/-- `text[:6000] if len(text) > 6000 else text` (llm_skill_extractor.py 170). -/
def truncateText (text : String) : String :=
  if 6000 < text.data.length then pyTake text 6000 else text

/-- The body of the outer `try` of `extract_skills` after the cache check
(llm_skill_extractor.py 168-238): every internal failure is caught and
becomes the all-empty mapping; a successful parse is normalized and stored. -/
def llmExtractCore (cfg : LLMConfig) (md5 : String → String)
    (parse : String → Except Unit JValue)
    (gem anth : Option (String → Except String String))
    (cache : SkillCache) (text : String) : SkillMap × SkillCache × Nat :=
  match attemptProviders cfg gem anth (truncateText text) with
  | (.error _, n) => (emptyLLMMap, cache, n)
  | (.ok none, n) => (emptyLLMMap, cache, n)
  | (.ok (some content), n) =>
    if content = "" then (emptyLLMMap, cache, n)
    else
      match parse (preprocessContent content) with
      | .error _ => (emptyLLMMap, cache, n)
      | .ok v =>
        match normalizeSkills v llmCategoryNames with
        | .error _ => (emptyLLMMap, cache, n)
        | .ok normalized =>
          (normalized, saveToCache cfg md5 cache (truncateText text) normalized, n)

/-- `LLMSkillExtractor.extract_skills` (llm_skill_extractor.py 153-238):
early return when no model is configured or the text is empty, then the
cache check (a cached falsy value — an empty dict — fails `if cached:` and
falls through), then the provider/parse/normalize pipeline. -/
def llmExtractSkills (cfg : LLMConfig) (md5 : String → String)
    (parse : String → Except Unit JValue)
    (gem anth : Option (String → Except String String))
    (cache : SkillCache) (text : String) : SkillMap × SkillCache × Nat :=
  if cfg.activeModel.isNone ∨ text = "" then (emptyLLMMap, cache, 0)
  else
    match getFromCache cfg md5 cache text with
    | some c =>
      if c.isEmpty then llmExtractCore cfg md5 parse gem anth cache text
      else (c, cache, 0)
    | none => llmExtractCore cfg md5 parse gem anth cache text

/-! ### Cache capacity (claim C9) -/

theorem updateOrAppend_length (cache : SkillCache) (k : String) (v : SkillMap) :
    (updateOrAppend cache k v).length ≤ cache.length + 1 := by
  induction cache with
  | nil => simp [updateOrAppend]
  | cons p rest ih =>
    obtain ⟨k', v'⟩ := p
    by_cases h : k' = k <;> simp [updateOrAppend, h] <;> omega

/-- Claim C9: a store never grows the cache beyond the fixed capacity of 500
entries — `size ≤ 500` is preserved by every store; a store performed when
the cache is at (or beyond) capacity first drops the batch of the 100
oldest-inserted entries and only then inserts; and consequently every cache
state reachable by a sequence of stores from the empty cache has at most 500
entries. -/
theorem skill_cache_capacity :
    (∀ (cfg : LLMConfig) (md5 : String → String) (cache : SkillCache)
        (text : String) (skills : SkillMap), cache.length ≤ MAX_CACHE_SIZE →
        (saveToCache cfg md5 cache text skills).length ≤ MAX_CACHE_SIZE) ∧
    (∀ (cfg : LLMConfig) (md5 : String → String) (cache : SkillCache)
        (text : String) (skills : SkillMap), cfg.useCache = true →
        MAX_CACHE_SIZE ≤ cache.length →
        saveToCache cfg md5 cache text skills =
          updateOrAppend (cache.drop 100) (getCacheKey md5 text) skills) ∧
    (∀ (cfg : LLMConfig) (md5 : String → String)
        (ops : List (String × SkillMap)),
        (ops.foldl (fun c p => saveToCache cfg md5 c p.1 p.2) []).length ≤
          MAX_CACHE_SIZE) := by
  have hstep : ∀ (cfg : LLMConfig) (md5 : String → String) (cache : SkillCache)
      (text : String) (skills : SkillMap), cache.length ≤ MAX_CACHE_SIZE →
      (saveToCache cfg md5 cache text skills).length ≤ MAX_CACHE_SIZE := by
    intro cfg md5 cache text skills hlen
    by_cases huse : cfg.useCache = true
    · by_cases hcap : MAX_CACHE_SIZE ≤ cache.length
      · have h1 := updateOrAppend_length (cache.drop 100) (getCacheKey md5 text) skills
        have h2 : (cache.drop 100).length = cache.length - 100 := by
          simp [List.length_drop]
        simp only [saveToCache, huse, if_true, if_pos hcap]
        unfold MAX_CACHE_SIZE at *
        omega
      · have h1 := updateOrAppend_length cache (getCacheKey md5 text) skills
        simp only [saveToCache, huse, if_true, if_neg hcap]
        unfold MAX_CACHE_SIZE at *
        omega
    · simp only [saveToCache, huse]
      simpa using hlen
  refine ⟨hstep, ?_, ?_⟩
  · intro cfg md5 cache text skills huse hcap
    simp [saveToCache, huse, if_pos hcap]
  · intro cfg md5 ops
    have : ∀ (l : List (String × SkillMap)) (c : SkillCache),
        c.length ≤ MAX_CACHE_SIZE →
        (l.foldl (fun c p => saveToCache cfg md5 c p.1 p.2) c).length ≤
          MAX_CACHE_SIZE := by
      intro l
      induction l with
      | nil => intro c hc; simpa using hc
      | cons p rest ih =>
        intro c hc
        exact ih _ (hstep cfg md5 c p.1 p.2 hc)
    exact this ops [] (by simp [MAX_CACHE_SIZE])

/-- Witness for C9 at a concrete at-capacity cache of 500 entries. -/
theorem skill_cache_capacity_witness :
    (saveToCache ⟨true, some .gemini⟩ (fun s => s)
        (List.replicate 500 ("k", ([] : SkillMap))) "t" emptyLLMMap).length ≤
      MAX_CACHE_SIZE ∧
    saveToCache ⟨true, some .gemini⟩ (fun s => s)
        (List.replicate 500 ("k", ([] : SkillMap))) "t" emptyLLMMap =
      updateOrAppend ((List.replicate 500 ("k", ([] : SkillMap))).drop 100)
        (getCacheKey (fun s => s) "t") emptyLLMMap :=
  ⟨skill_cache_capacity.1 ⟨true, some .gemini⟩ (fun s => s) _ "t" emptyLLMMap
      (by rw [List.length_replicate]; decide),
   skill_cache_capacity.2.1 ⟨true, some .gemini⟩ (fun s => s) _ "t" emptyLLMMap
      rfl (by rw [List.length_replicate]; decide)⟩

/-! ### Extractor lemmas (claims C3 and C4) -/

theorem normalizeSkills_keys (v : JValue) (cats : List String) (m : SkillMap)
    (h : normalizeSkills v cats = .ok m) : m.map Prod.fst = cats := by
  induction cats generalizing m with
  | nil =>
    simp only [normalizeSkills] at h
    cases h
    rfl
  | cons cat rest ih =>
    simp only [normalizeSkills] at h
    cases hx : normalizeCategory v cat with
    | error e => rw [hx] at h; cases h
    | ok xs =>
      rw [hx] at h
      cases hm : normalizeSkills v rest with
      | error e => rw [hm] at h; cases h
      | ok m2 =>
        rw [hm] at h
        cases h
        simp [ih m2 hm]

theorem emptyLLMMap_ne_nil : emptyLLMMap ≠ [] := by decide

theorem llmExtractCore_ne_nil (cfg : LLMConfig) (md5 : String → String)
    (parse : String → Except Unit JValue)
    (gem anth : Option (String → Except String String))
    (cache : SkillCache) (text : String) :
    (llmExtractCore cfg md5 parse gem anth cache text).1 ≠ [] := by
  unfold llmExtractCore
  split
  · exact emptyLLMMap_ne_nil
  · exact emptyLLMMap_ne_nil
  · split
    · exact emptyLLMMap_ne_nil
    · split
      · exact emptyLLMMap_ne_nil
      · split
        · exact emptyLLMMap_ne_nil
        · rename_i normalized hnorm
          have hkeys := normalizeSkills_keys _ _ _ hnorm
          intro hc
          have hn : normalized = [] := hc
          rw [hn] at hkeys
          exact (by decide : ¬ (List.map Prod.fst ([] : SkillMap) = llmCategoryNames)) hkeys

theorem llmExtractSkills_ne_nil (cfg : LLMConfig) (md5 : String → String)
    (parse : String → Except Unit JValue)
    (gem anth : Option (String → Except String String))
    (cache : SkillCache) (text : String) :
    (llmExtractSkills cfg md5 parse gem anth cache text).1 ≠ [] := by
  unfold llmExtractSkills
  split
  · exact emptyLLMMap_ne_nil
  · split
    · rename_i c hc
      split
      · exact llmExtractCore_ne_nil cfg md5 parse gem anth cache text
      · rename_i hne
        simpa [List.isEmpty_iff] using hne
    · exact llmExtractCore_ne_nil cfg md5 parse gem anth cache text

theorem llmExtractCore_failure (cfg : LLMConfig) (md5 : String → String)
    (parse : String → Except Unit JValue)
    (gem anth : Option (String → Except String String))
    (cache : SkillCache) (text : String)
    (hfail :
      (attemptProviders cfg gem anth (truncateText text)).1 = .error () ∨
      (attemptProviders cfg gem anth (truncateText text)).1 = .ok none ∨
      ∃ s, (attemptProviders cfg gem anth (truncateText text)).1 = .ok (some s) ∧
        (s = "" ∨ parse (preprocessContent s) = .error () ∨
          ∃ v, parse (preprocessContent s) = .ok v ∧
            normalizeSkills v llmCategoryNames = .error ())) :
    llmExtractCore cfg md5 parse gem anth cache text =
      (emptyLLMMap, cache, (attemptProviders cfg gem anth (truncateText text)).2) := by
  rcases hap : attemptProviders cfg gem anth (truncateText text) with ⟨r, n⟩
  rw [hap] at hfail
  simp only at hfail
  cases r with
  | error e => simp [llmExtractCore, hap]
  | ok o =>
    cases o with
    | none => simp [llmExtractCore, hap]
    | some s =>
      rcases hfail with h | h | ⟨s', hs', hcase⟩
      · cases h
      · cases h
      · have hss : s = s' := by
          injection hs' with h1
          injection h1
        subst hss
        by_cases hempty : s = ""
        · simp [llmExtractCore, hap, hempty]
        · rcases hcase with h | h | ⟨v, hv, hn⟩
          · exact absurd h hempty
          · simp [llmExtractCore, hap, hempty, h]
          · simp [llmExtractCore, hap, hempty, hv, hn]

/-- Claim C3: `extract_skills` never raises (the embedding is a total
function on every provider behaviour, including raising providers,
unparseable responses and absent responses), and whenever no provider call
produces content or the response cannot be parsed and normalized as the
expected JSON mapping, it returns the mapping with every configured LLM
category present and mapped to the empty list. -/
theorem llm_extract_failure_all_empty (cfg : LLMConfig) (md5 : String → String)
    (parse : String → Except Unit JValue)
    (gem anth : Option (String → Except String String))
    (cache : SkillCache) (text : String) :
    (cfg.activeModel = none ∨ text = "" →
      llmExtractSkills cfg md5 parse gem anth cache text = (emptyLLMMap, cache, 0)) ∧
    ((∀ c, getFromCache cfg md5 cache text = some c → c = []) →
      ((attemptProviders cfg gem anth (truncateText text)).1 = .error () ∨
       (attemptProviders cfg gem anth (truncateText text)).1 = .ok none ∨
       ∃ s, (attemptProviders cfg gem anth (truncateText text)).1 = .ok (some s) ∧
         (s = "" ∨ parse (preprocessContent s) = .error () ∨
           ∃ v, parse (preprocessContent s) = .ok v ∧
             normalizeSkills v llmCategoryNames = .error ())) →
      (llmExtractSkills cfg md5 parse gem anth cache text).1 = emptyLLMMap) := by
  constructor
  · intro h
    rcases h with h | h
    · simp [llmExtractSkills, h]
    · simp [llmExtractSkills, h]
  · intro hmiss hfail
    unfold llmExtractSkills
    split
    · rfl
    · have hcore := llmExtractCore_failure cfg md5 parse gem anth cache text hfail
      split
      · rename_i c hc
        have hcnil : c = [] := hmiss c hc
        rw [if_pos (by simp [hcnil])]
        rw [hcore]
      · rw [hcore]

/-- Witness for C3: one configured provider that answers with unparseable
text; the call returns the all-empty category mapping. -/
theorem llm_extract_failure_all_empty_witness :
    (llmExtractSkills ⟨true, some .gemini⟩ (fun s => s) (fun _ => .error ())
      (some (fun _ => .ok "oops")) none [] "abc").1 = emptyLLMMap :=
  (llm_extract_failure_all_empty ⟨true, some .gemini⟩ (fun s => s)
      (fun _ => .error ()) (some (fun _ => .ok "oops")) none [] "abc").2
    (fun c hc => by simp [getFromCache, lookupAssoc] at hc)
    (Or.inr (Or.inr ⟨"oops", rfl, Or.inr (Or.inl rfl)⟩))

theorem pyTake_eq_empty (s : String) (n : Nat) (hn : n ≠ 0)
    (h : pyTake s n = "") : s = "" := by
  cases s with
  | mk data =>
    cases data with
    | nil => rfl
    | cons c cs =>
      cases n with
      | zero => exact absurd rfl hn
      | succ m =>
        have h2 : List.take (m + 1) (c :: cs) = ([] : List Char) :=
          congrArg String.data h
        simp at h2

/-- Claim C4: with caching enabled, after a first call on `t1` that issued
one provider call and stored its result `r1` in the cache, a second call on
any `t2` agreeing with `t1` on the first 2000 characters returns exactly the
stored mapping, leaves the cache unchanged and invokes no provider, so the
two calls together issue exactly one provider call and produce identical
results. -/
theorem llm_cache_round_trip (cfg : LLMConfig) (md5 : String → String)
    (parse : String → Except Unit JValue)
    (gem anth : Option (String → Except String String))
    (cache0 cache1 : SkillCache) (t1 t2 : String) (r1 : SkillMap)
    (huse : cfg.useCache = true)
    (hpfx : pyTake t1 2000 = pyTake t2 2000)
    (h1 : llmExtractSkills cfg md5 parse gem anth cache0 t1 = (r1, cache1, 1))
    (hstored : lookupAssoc cache1 (getCacheKey md5 t1) = some r1) :
    llmExtractSkills cfg md5 parse gem anth cache1 t2 = (r1, cache1, 0) ∧
    1 + (llmExtractSkills cfg md5 parse gem anth cache1 t2).2.2 = 1 := by
  have hguard1 : ¬ (cfg.activeModel.isNone ∨ t1 = "") := by
    intro hg
    rw [llmExtractSkills, if_pos hg] at h1
    have : (0 : Nat) = 1 := congrArg (fun p => p.2.2) h1
    cases this
  have ht1 : t1 ≠ "" := by
    intro hc
    exact hguard1 (Or.inr hc)
  have ht2 : t2 ≠ "" := by
    intro hc
    rw [hc] at hpfx
    exact ht1 (pyTake_eq_empty t1 2000 (by decide) (by simpa [pyTake] using hpfx))
  have hmodel : ¬ cfg.activeModel.isNone := fun hc => hguard1 (Or.inl hc)
  have hr1 : r1 ≠ [] := by
    intro hc
    have := llmExtractSkills_ne_nil cfg md5 parse gem anth cache0 t1
    rw [h1] at this
    exact this hc
  have hkey : getCacheKey md5 t2 = getCacheKey md5 t1 := by
    simp [getCacheKey, hpfx]
  have hmain : llmExtractSkills cfg md5 parse gem anth cache1 t2 = (r1, cache1, 0) := by
    rw [llmExtractSkills, if_neg (by simp [hmodel, ht2])]
    have hcache2 : getFromCache cfg md5 cache1 t2 = some r1 := by
      rw [getFromCache, if_pos huse, hkey, hstored]
    rw [hcache2]
    simp only []
    rw [if_neg (by simp [List.isEmpty_iff, hr1])]
  exact ⟨hmain, by rw [hmain]; rfl⟩

/-- Witness for C4: a concrete first call (one Gemini invocation, response
`{}`) followed by a second call on the same text that is served from the
cache with zero provider invocations. -/
theorem llm_cache_round_trip_witness :
    llmExtractSkills ⟨true, some .gemini⟩ (fun s => s) (fun _ => .ok (.jobj []))
      (some (fun _ => .ok "\x7b\x7d")) none
      [("job text", emptyLLMMap)] "job text" = (emptyLLMMap, [("job text", emptyLLMMap)], 0) :=
  (llm_cache_round_trip ⟨true, some .gemini⟩ (fun s => s) (fun _ => .ok (.jobj []))
      (some (fun _ => .ok "\x7b\x7d")) none
      [] [("job text", emptyLLMMap)] "job text" "job text" emptyLLMMap
      rfl rfl (by decide) (by decide)).1

/-! ## Relevance scorer (FDEJobScraper._calculate_relevance, job_scraper.py
228-255)

The decimal literals of the source are embedded as the rationals they
denote; every value produced here (sums and minima of small decimals) is
computed exactly. -/

/-- The title-keyword ladder (job_scraper.py 233-241): first match taken. -/
def titleScore (title : String) : ℚ :=
  let tl := pyLower title
  if strIn "forward deploy" tl ∨ strIn "fde" tl then 1/2
  else if strIn "solutions engineer" tl then 2/5
  else if strIn "field engineer" tl ∨ strIn "implementation" tl then 3/10
  else if strIn "customer engineer" tl then 1/4
  else 0

/-- `FDEJobScraper._calculate_relevance`: ladder base plus capped skill-count
bonuses, clamped at 1.0. -/
def calculateRelevance (title : String) (skills : SkillMap) : ℚ :=
  let base := titleScore title
  let aiml := ((lookupAssoc skills "ai_ml").getD []).length
  let prog := ((lookupAssoc skills "programming").getD []).length
  let cloud := ((lookupAssoc skills "cloud_devops").getD []).length
  let score := base + min ((aiml : ℚ) * (1/20)) (1/4) +
    min ((prog : ℚ) * (1/50)) (3/20) + min ((cloud : ℚ) * (1/50)) (1/10)
  min score 1

/-! ### Scorer lemmas (claims C5 and C10) -/

theorem titleScore_nonneg (title : String) : 0 ≤ titleScore title := by
  unfold titleScore
  dsimp only
  split_ifs <;> norm_num

theorem titleScore_le_half (title : String) : titleScore title ≤ 1/2 := by
  unfold titleScore
  dsimp only
  split_ifs <;> norm_num

theorem calculateRelevance_bounds (title : String) (skills : SkillMap) :
    0 ≤ calculateRelevance title skills ∧ calculateRelevance title skills ≤ 1 := by
  unfold calculateRelevance
  constructor
  · refine le_min ?_ (by norm_num)
    refine add_nonneg (add_nonneg (add_nonneg (titleScore_nonneg title) ?_) ?_) ?_
    · exact le_min (by positivity) (by norm_num)
    · exact le_min (by positivity) (by norm_num)
    · exact le_min (by positivity) (by norm_num)
  · exact min_le_right _ _

theorem calculateRelevance_empty (title : String) :
    calculateRelevance title [] = titleScore title := by
  have hle : titleScore title ≤ 1 :=
    le_trans (titleScore_le_half title) (by norm_num)
  simp only [calculateRelevance, lookupAssoc, Option.getD_none, List.length_nil,
    Nat.cast_zero, zero_mul]
  rw [min_eq_left (by norm_num : (0:ℚ) ≤ 1/4),
    min_eq_left (by norm_num : (0:ℚ) ≤ 3/20),
    min_eq_left (by norm_num : (0:ℚ) ≤ 1/10)]
  rw [add_zero, add_zero, add_zero]
  exact min_eq_left hle

/-- Claim C5: the relevance score is always in [0,1]; with the all-empty
skills mapping, the title "Forward Deployed Engineer" scores exactly 0.5 and
a title matching none of the ladder keywords scores exactly 0.0; and the
title ladder is checked in fixed priority order with the first match taken
(0.5, then 0.4, then 0.3, then 0.25, then 0.0), the score with empty skills
being exactly the ladder value. -/
theorem calculate_relevance_spec :
    (∀ (title : String) (skills : SkillMap),
      0 ≤ calculateRelevance title skills ∧ calculateRelevance title skills ≤ 1) ∧
    calculateRelevance "Forward Deployed Engineer" [] = 1/2 ∧
    (∀ title : String,
      ¬ strIn "forward deploy" (pyLower title) ∧ ¬ strIn "fde" (pyLower title) ∧
      ¬ strIn "solutions engineer" (pyLower title) ∧
      ¬ strIn "field engineer" (pyLower title) ∧
      ¬ strIn "implementation" (pyLower title) ∧
      ¬ strIn "customer engineer" (pyLower title) →
      calculateRelevance title [] = 0) ∧
    (∀ title : String, calculateRelevance title [] = titleScore title) ∧
    (∀ title : String,
      (strIn "forward deploy" (pyLower title) ∨ strIn "fde" (pyLower title)) →
      titleScore title = 1/2) ∧
    (∀ title : String,
      ¬ strIn "forward deploy" (pyLower title) → ¬ strIn "fde" (pyLower title) →
      strIn "solutions engineer" (pyLower title) → titleScore title = 2/5) ∧
    (∀ title : String,
      ¬ strIn "forward deploy" (pyLower title) → ¬ strIn "fde" (pyLower title) →
      ¬ strIn "solutions engineer" (pyLower title) →
      (strIn "field engineer" (pyLower title) ∨ strIn "implementation" (pyLower title)) →
      titleScore title = 3/10) ∧
    (∀ title : String,
      ¬ strIn "forward deploy" (pyLower title) → ¬ strIn "fde" (pyLower title) →
      ¬ strIn "solutions engineer" (pyLower title) →
      ¬ strIn "field engineer" (pyLower title) →
      ¬ strIn "implementation" (pyLower title) →
      strIn "customer engineer" (pyLower title) → titleScore title = 1/4) := by
  refine ⟨calculateRelevance_bounds, ?_, ?_, calculateRelevance_empty,
    ?_, ?_, ?_, ?_⟩
  · rw [calculateRelevance_empty]
    have h : strIn "forward deploy" (pyLower "Forward Deployed Engineer") = true := by
      decide
    simp [titleScore, h]
  · intro title h
    obtain ⟨h1, h2, h3, h4, h5, h6⟩ := h
    rw [calculateRelevance_empty]
    simp [titleScore, h1, h2, h3, h4, h5, h6]
  · intro title h
    simp [titleScore, h]
  · intro title h1 h2 h3
    simp [titleScore, h1, h2, h3]
  · intro title h1 h2 h3 h4
    simp [titleScore, h1, h2, h3, h4]
  · intro title h1 h2 h3 h4 h5 h6
    simp [titleScore, h1, h2, h3, h4, h5, h6]

/-- Witness for C5 at concrete titles: a no-keyword title scores 0.0 and a
"Solutions Engineer" title takes the 0.4 rung. -/
theorem calculate_relevance_spec_witness :
    calculateRelevance "Software Janitor" [] = 0 ∧
    titleScore "Senior Solutions Engineer" = 2/5 :=
  ⟨calculate_relevance_spec.2.2.1 "Software Janitor"
      ⟨by decide, by decide, by decide, by decide, by decide, by decide⟩,
   calculate_relevance_spec.2.2.2.2.2.1 "Senior Solutions Engineer"
      (by decide) (by decide) (by decide)⟩

theorem lookupAssoc_eq_none {α : Type} (l : List (String × α)) (k : String)
    (h : k ∉ l.map Prod.fst) : lookupAssoc l k = none := by
  induction l with
  | nil => rfl
  | cons p rest ih =>
    obtain ⟨k', v⟩ := p
    simp only [List.map_cons, List.mem_cons] at h
    push_neg at h
    simp only [lookupAssoc, if_neg (Ne.symm h.1)]
    exact ih h.2

/-- Claim C10: the key set of every LLM-path result is exactly the ten LLM
categories, which contain neither "programming" nor "cloud_devops"; on any
mapping with those keys the scorer's programming and cloud/devops bonuses
are zero, so the relevance score is exactly the title base score plus the
capped ai_ml bonus, clamped to 1; and every successfully normalized LLM
response indeed carries exactly those keys. -/
theorem llm_skills_relevance (title : String) (skills : SkillMap)
    (hkeys : skills.map Prod.fst = llmCategoryNames) :
    ("programming" ∉ llmCategoryNames ∧ "cloud_devops" ∉ llmCategoryNames) ∧
    calculateRelevance title skills =
      min (titleScore title +
        min ((((lookupAssoc skills "ai_ml").getD []).length : ℚ) * (1/20)) (1/4)) 1 ∧
    (∀ (v : JValue) (m : SkillMap), normalizeSkills v llmCategoryNames = .ok m →
      m.map Prod.fst = llmCategoryNames) := by
  refine ⟨by decide, ?_, fun v m hm => normalizeSkills_keys v llmCategoryNames m hm⟩
  have hp : lookupAssoc skills "programming" = none :=
    lookupAssoc_eq_none _ _ (by rw [hkeys]; decide)
  have hc : lookupAssoc skills "cloud_devops" = none :=
    lookupAssoc_eq_none _ _ (by rw [hkeys]; decide)
  simp only [calculateRelevance, hp, hc, Option.getD_none, List.length_nil,
    Nat.cast_zero, zero_mul]
  rw [min_eq_left (by norm_num : (0:ℚ) ≤ 3/20),
    min_eq_left (by norm_num : (0:ℚ) ≤ 1/10)]
  rw [add_zero, add_zero]

/-- Witness for C10 at the all-empty LLM mapping and a concrete title. -/
theorem llm_skills_relevance_witness :
    calculateRelevance "Forward Deployed Engineer" emptyLLMMap =
      min (titleScore "Forward Deployed Engineer" +
        min ((((lookupAssoc emptyLLMMap "ai_ml").getD []).length : ℚ) * (1/20)) (1/4)) 1 :=
  (llm_skills_relevance "Forward Deployed Engineer" emptyLLMMap (by decide)).2.1

/-! ## Taxonomy skill matcher (backend/skill_extractor.py 1-193)

The precompiled patterns are `\\b re.escape(skill) \\b` with IGNORECASE,
searched in `text.lower()`.  The word-boundary semantics of `re` is embedded
directly: `\\b` holds at a position iff exactly one of the adjacent
characters (start/end of text counting as absent) is a word character. -/

def AI_ML_KEYWORDS : List String :=
  ["machine learning", "deep learning", "neural networks", "nlp",
   "natural language processing", "computer vision",
   "reinforcement learning", "supervised learning", "unsupervised learning",
   "transformers", "attention mechanism", "embeddings", "vector databases",
   "rag", "retrieval augmented generation", "fine-tuning",
   "prompt engineering", "llm", "large language models", "generative ai",
   "gen ai", "gpt", "claude", "chatgpt", "openai", "anthropic", "ai models",
   "foundation models", "frontier models", "ai systems", "ai applications",
   "ai agents", "agent development", "agentic", "autonomous agents",
   "multi-agent", "function calling", "tool use", "mcp", "mcp servers",
   "sub-agents", "agent skills", "chain of thought", "reasoning",
   "ai orchestration", "tensorflow", "pytorch", "keras", "scikit-learn",
   "sklearn", "hugging face", "huggingface", "langchain", "llamaindex",
   "llama index", "openai api", "anthropic api", "claude api",
   "semantic kernel", "autogen", "crewai", "mlops", "mlflow", "kubeflow",
   "sagemaker", "vertex ai", "azure ml", "databricks", "model deployment",
   "model serving", "feature store", "model monitoring", "ai deployment",
   "llm deployment", "production ai", "ai at scale", "evaluation frameworks",
   "evals", "model evaluation", "ai safety", "responsible ai", "red teaming",
   "prompt injection", "jailbreaking", "guardrails", "pandas", "numpy",
   "scipy", "matplotlib", "seaborn", "jupyter", "data science",
   "statistical analysis", "a/b testing", "experimentation"]

def PROGRAMMING_SKILLS : List String :=
  ["python", "javascript", "typescript", "java", "go", "golang", "rust",
   "c++", "c#", "scala", "kotlin", "ruby", "php", "swift", "r", "sql",
   "react", "vue", "angular", "next.js", "nextjs", "node.js", "nodejs",
   "express", "fastapi", "flask", "django", "spring", "rails", "svelte",
   "rest", "restful", "graphql", "grpc", "websockets", "api design",
   "api development", "openapi", "swagger", "api integration", "sdk",
   "webhooks", "data structures", "algorithms", "system design",
   "software architecture", "microservices", "distributed systems",
   "event-driven", "full-stack", "full stack", "backend", "frontend",
   "production code", "code review", "testing", "unit testing",
   "integration testing", "git", "version control", "agile development"]

def CLOUD_DEVOPS : List String :=
  ["aws", "amazon web services", "gcp", "google cloud", "azure",
   "microsoft azure", "cloud infrastructure", "cloud native", "multi-cloud",
   "hybrid cloud", "ec2", "s3", "lambda", "ecs", "eks", "rds", "dynamodb",
   "cloudformation", "bigquery", "cloud functions", "cloud run", "gke",
   "serverless", "api gateway", "sqs", "sns", "kinesis", "eventbridge",
   "docker", "kubernetes", "k8s", "helm", "terraform", "ansible", "jenkins",
   "ci/cd", "github actions", "gitlab ci", "circleci", "argocd",
   "infrastructure as code", "iac", "devops", "postgresql", "postgres",
   "mysql", "mongodb", "redis", "elasticsearch", "pinecone", "weaviate",
   "chroma", "qdrant", "milvus", "sql", "nosql", "vector database",
   "graph database", "neo4j", "snowflake", "redshift", "monitoring",
   "logging", "observability", "datadog", "splunk", "grafana", "prometheus",
   "new relic", "cloudwatch"]

def SOFT_SKILLS : List String :=
  ["communication", "presentation", "public speaking", "technical writing",
   "documentation", "storytelling", "executive presence", "customer-facing",
   "client-facing", "stakeholder management", "customer engagement",
   "customer success", "customer relationships", "discovery",
   "requirements gathering", "needs assessment", "problem solving",
   "problem-solving", "analytical", "critical thinking", "troubleshooting",
   "debugging", "root cause analysis", "collaboration", "teamwork",
   "cross-functional", "agile", "scrum", "leadership", "mentoring",
   "coaching", "influence", "high agency", "autonomy", "self-starter",
   "entrepreneurial", "ambiguity", "fast-paced", "adaptable", "resourceful"]

def FDE_SPECIFIC : List String :=
  ["forward deployed", "forward-deployed", "forward deploy",
   "forward deployment", "field engineer", "solutions engineer",
   "solutions architect", "technical account manager", "customer engineer",
   "professional services", "consulting", "technical consulting",
   "implementation", "integration", "deployment", "onboarding",
   "proof of concept", "poc", "pilot", "demo", "demonstration", "prototype",
   "prototyping", "mvp", "technical discovery", "white glove", "hands-on",
   "embedded", "on-site", "enterprise", "enterprise sales",
   "technical sales", "pre-sales", "post-sales", "enterprise customers",
   "strategic customers", "key accounts", "revenue", "expansion", "upsell",
   "land and expand", "use case", "use cases", "workflow", "workflows",
   "business process", "domain expertise", "industry knowledge", "vertical",
   "financial services", "healthcare", "life sciences", "fintech",
   "production", "production environment", "production workflows",
   "customer requirements", "technical requirements", "solution design",
   "architecture review", "code review", "best practices",
   "deployment patterns", "reference architecture", "playbook"]

def DATA_PIPELINES : List String :=
  ["data engineering", "data pipelines", "etl", "elt", "data warehouse",
   "data lake", "data mesh", "data modeling", "dbt", "kafka", "apache kafka",
   "spark", "apache spark", "flink", "airflow", "streaming", "real-time",
   "batch processing", "analytics", "business intelligence", "bi",
   "dashboards", "reporting", "looker", "tableau", "power bi", "metabase"]

/-- `ALL_SKILLS` (skill_extractor.py 154-161), in source order; a skill found
in several sets belongs to the LAST set registering it, exactly as the
`skill_to_category` dict overwrite in `SkillExtractor.__init__`. -/
def allSkillsByCat : List (String × List String) :=
  [("ai_ml", AI_ML_KEYWORDS), ("programming", PROGRAMMING_SKILLS),
   ("cloud_devops", CLOUD_DEVOPS), ("soft_skills", SOFT_SKILLS),
   ("fde_specific", FDE_SPECIFIC), ("data_pipelines", DATA_PIPELINES)]

/-- `skill_to_category[skill]`: the last category whose set holds the
skill. -/
def skillCategory (s : String) : Option String :=
  allSkillsByCat.foldl (fun acc p => if p.2.contains s then some p.1 else acc)
    none

/-- The keys of `skill_to_category`: every distinct skill phrase. -/
def allSkillNames : List String :=
  (allSkillsByCat.foldr (fun p acc => p.2 ++ acc) []).dedup

/-- Word-boundary test of `re` at the start of a match: `\\b` holds between
the preceding character (absent at text start) and the first matched
character. -/
def boundaryOk (prev : Option Char) (cur : Char) : Bool :=
  match prev with
  | none => isWordChar cur
  | some p => isWordChar p != isWordChar cur

/-- Word-boundary test at the end of a match. -/
def endBoundaryOk (lst : Char) (next : Option Char) : Bool :=
  match next with
  | none => isWordChar lst
  | some nx => isWordChar lst != isWordChar nx

/-- Does `\\b skill \\b` match at exactly this position (`prev` being the
character before the position)? -/
def wordMatchHere (skill : List Char) (prev : Option Char) (rest : List Char) :
    Bool :=
  match skill.head?, skill.getLast? with
  | some first, some lst =>
    boundaryOk prev first && skill.isPrefixOf rest &&
      endBoundaryOk lst ((rest.drop skill.length).head?)
  | _, _ => false

/-- `pattern.search`: try the pattern at every position. -/
def wordScanGo (skill : List Char) : Option Char → List Char → Bool
  | prev, [] => wordMatchHere skill prev []
  | prev, c :: cs => wordMatchHere skill prev (c :: cs) || wordScanGo skill (some c) cs

/-- `self.patterns[skill].search(text)` as a Bool. -/
def hasWordMatch (skill text : String) : Bool :=
  wordScanGo skill.data none text.data

/-- The per-category result of `SkillExtractor.extract_skills`: the set of
matching skills registered to the category, as a sorted list
(`sorted(list(found))`, skill_extractor.py 193). -/
def taxonomyMatches (textLower : String) (cat : String) : List String :=
  List.insertionSort (fun a b => a ≤ b)
    (allSkillNames.filter
      (fun s => (skillCategory s == some cat) && hasWordMatch s textLower))

/-- Per-category output of `SkillExtractor.extract_skills`: the empty-input
early return yields `[]` for the category, otherwise the sorted matches. -/
def taxonomyCategoryResult (text : String) (cat : String) : List String :=
  if text = "" then [] else taxonomyMatches (pyLower text) cat

/-- `SkillExtractor.extract_skills` (skill_extractor.py 179-193). -/
def extractSkillsTaxonomy (text : String) : SkillMap :=
  allSkillsByCat.map (fun p => (p.1, taxonomyCategoryResult text p.1))

/-! ### Word-boundary scanner semantics -/

/-- The character preceding the match position: the last of the consumed
prefix, or the scan entry character. -/
def lastOr (prev : Option Char) (pre : List Char) : Option Char :=
  match pre.getLast? with
  | some c => some c
  | none => prev

theorem lastOr_none (pre : List Char) : lastOr none pre = pre.getLast? := by
  unfold lastOr
  cases pre.getLast? <;> rfl

theorem lastOr_cons (prev : Option Char) (c : Char) (pre : List Char) :
    lastOr prev (c :: pre) = lastOr (some c) pre := by
  cases pre with
  | nil => rfl
  | cons d ds =>
    unfold lastOr
    rw [List.getLast?_cons_cons]
    cases hgl : (d :: ds).getLast? with
    | some x => rfl
    | none => exact absurd (List.getLast?_eq_none_iff.mp hgl) (by simp)

theorem wordScanGo_iff (skill : List Char) (first lst : Char)
    (hf : skill.head? = some first) (hl : skill.getLast? = some lst)
    (rest : List Char) (prev : Option Char) :
    wordScanGo skill prev rest = true ↔
      ∃ pre post, rest = pre ++ skill ++ post ∧
        boundaryOk (lastOr prev pre) first = true ∧
        endBoundaryOk lst post.head? = true := by
  induction rest generalizing prev with
  | nil =>
    constructor
    · intro h
      rw [wordScanGo, wordMatchHere, hf, hl] at h
      cases skill with
      | nil => cases hf
      | cons s0 stail => simp [List.isPrefixOf] at h
    · rintro ⟨pre, post, habs, -, -⟩
      have : skill = [] := by
        cases pre <;> simp_all
      rw [this] at hf
      cases hf
  | cons c cs ih =>
    rw [wordScanGo, Bool.or_eq_true]
    constructor
    · rintro (h | h)
      · rw [wordMatchHere, hf, hl, Bool.and_eq_true, Bool.and_eq_true] at h
        obtain ⟨⟨hb, hpfx⟩, he⟩ := h
        obtain ⟨post, hpost⟩ := (List.isPrefixOf_iff_prefix.mp hpfx)
        refine ⟨[], post, by simpa using hpost.symm, ?_, ?_⟩
        · simpa [lastOr] using hb
        · rw [← hpost, List.drop_left] at he
          exact he
      · obtain ⟨pre, post, hcs, hb, he⟩ := (ih (some c)).mp h
        refine ⟨c :: pre, post, by simp [hcs], ?_, he⟩
        rw [lastOr_cons]
        exact hb
    · rintro ⟨pre, post, heq, hb, he⟩
      cases pre with
      | nil =>
        refine Or.inl ?_
        rw [wordMatchHere, hf, hl, Bool.and_eq_true, Bool.and_eq_true]
        simp only [List.nil_append] at heq
        refine ⟨⟨?_, ?_⟩, ?_⟩
        · simpa [lastOr] using hb
        · exact List.isPrefixOf_iff_prefix.mpr ⟨post, heq.symm⟩
        · rw [heq, List.drop_left]
          exact he
      | cons d pres =>
        refine Or.inr ((ih (some c)).mpr ?_)
        have hcd : c = d ∧ cs = pres ++ skill ++ post := by
          simpa using heq
        obtain ⟨hcd1, hcd2⟩ := hcd
        subst hcd1
        refine ⟨pres, post, hcd2, ?_, he⟩
        rw [← lastOr_cons prev c pres]
        exact hb

theorem hasWordMatch_iff (skill text : String) (first lst : Char)
    (hf : skill.data.head? = some first) (hl : skill.data.getLast? = some lst) :
    hasWordMatch skill text = true ↔
      ∃ pre post, text.data = pre ++ skill.data ++ post ∧
        boundaryOk pre.getLast? first = true ∧
        endBoundaryOk lst post.head? = true := by
  rw [hasWordMatch, wordScanGo_iff skill.data first lst hf hl]
  constructor
  · rintro ⟨pre, post, h1, h2, h3⟩
    exact ⟨pre, post, h1, by rwa [lastOr_none] at h2, h3⟩
  · rintro ⟨pre, post, h1, h2, h3⟩
    exact ⟨pre, post, h1, by rwa [lastOr_none], h3⟩

/-! ### Taxonomy matcher claim (C6) -/

theorem lookupAssoc_map_fst {β : Type} (l : List (String × List String))
    (f : String → β) (k : String) :
    lookupAssoc (l.map (fun p => (p.1, f p.1))) k =
      if k ∈ l.map Prod.fst then some (f k) else none := by
  induction l with
  | nil => simp [lookupAssoc]
  | cons p rest ih =>
    obtain ⟨k', v⟩ := p
    simp only [List.map_cons, lookupAssoc]
    by_cases h : k' = k
    · subst h
      simp
    · rw [if_neg h, ih]
      have hne : ¬ k = k' := fun hc => h hc.symm
      by_cases hm : k ∈ List.map Prod.fst rest
      · rw [if_pos hm, if_pos (List.mem_cons.mpr (Or.inr hm))]
      · rw [if_neg hm, if_neg (by simp [hne, hm])]

theorem extract_lookup_char (text cat : String) :
    lookupAssoc (extractSkillsTaxonomy text) cat =
      if cat ∈ allSkillsByCat.map Prod.fst then
        some (taxonomyCategoryResult text cat)
      else none := by
  unfold extractSkillsTaxonomy
  exact lookupAssoc_map_fst allSkillsByCat (taxonomyCategoryResult text) cat

theorem mem_allSkillNames (s : String)
    (h : s ∈ allSkillsByCat.foldr (fun p acc => p.2 ++ acc) []) :
    s ∈ allSkillNames := by
  rw [allSkillNames, List.mem_dedup]
  exact h

theorem mem_taxonomyMatches (textLower : String) (cat s : String) :
    s ∈ taxonomyMatches textLower cat ↔
      s ∈ allSkillNames ∧ skillCategory s = some cat ∧
        hasWordMatch s textLower = true := by
  rw [taxonomyMatches, List.mem_insertionSort, List.mem_filter]
  constructor
  · rintro ⟨h1, h2⟩
    rw [Bool.and_eq_true] at h2
    exact ⟨h1, by simpa using h2.1, h2.2⟩
  · rintro ⟨h1, h2, h3⟩
    refine ⟨h1, ?_⟩
    rw [Bool.and_eq_true]
    exact ⟨by simpa using h2, h3⟩

/-- Claim C6: the taxonomy matcher performs whole-word, case-insensitive
matching of literal skill phrases.  For any text containing (after
lowercasing) the phrase "kubernetes and docker" as a whole-word occurrence,
the output's cloud_devops list holds both "kubernetes" and "docker"; for any
text containing the word "postgres" but not the word "postgresql", the
output holds "postgres" and no category ever holds "postgresql" (no alias
normalization happens on the taxonomy path); and every category's output
list is sorted. -/
theorem taxonomy_matcher_spec (text : String) :
    (∀ cat l, lookupAssoc (extractSkillsTaxonomy text) cat = some l →
      l.Sorted (· ≤ ·)) ∧
    ((∃ pre post, (pyLower text).data =
          pre ++ "kubernetes and docker".data ++ post ∧
        boundaryOk pre.getLast? 'k' = true ∧
        endBoundaryOk 'r' post.head? = true) →
      ∃ l, lookupAssoc (extractSkillsTaxonomy text) "cloud_devops" = some l ∧
        "kubernetes" ∈ l ∧ "docker" ∈ l) ∧
    ((∃ pre post, (pyLower text).data = pre ++ "postgres".data ++ post ∧
        boundaryOk pre.getLast? 'p' = true ∧
        endBoundaryOk 's' post.head? = true) →
      (¬ ∃ pre post, (pyLower text).data = pre ++ "postgresql".data ++ post ∧
          boundaryOk pre.getLast? 'p' = true ∧
          endBoundaryOk 'l' post.head? = true) →
      (∃ l, lookupAssoc (extractSkillsTaxonomy text) "cloud_devops" = some l ∧
        "postgres" ∈ l) ∧
      (∀ cat l, lookupAssoc (extractSkillsTaxonomy text) cat = some l →
        "postgresql" ∉ l)) := by
  have hne : ∀ (pre mid post : List Char), mid ≠ [] →
      (pyLower text).data = pre ++ mid ++ post → text ≠ "" := by
    intro pre mid post hmid heq hc
    subst hc
    have : ([] : List Char) = pre ++ mid ++ post := by
      simpa [pyLower] using heq
    have h1 := (List.append_eq_nil.mp ((List.append_eq_nil.mp this.symm).1)).2
    exact hmid h1
  refine ⟨?_, ?_, ?_⟩
  · intro cat l hl
    rw [extract_lookup_char] at hl
    split at hl
    · cases hl
      unfold taxonomyCategoryResult
      split
      · exact List.sorted_nil
      · exact List.sorted_insertionSort _ _
    · cases hl
  · rintro ⟨pre, post, heq, hb, he⟩
    have htext : text ≠ "" := hne pre _ post (by decide) heq
    refine ⟨taxonomyMatches (pyLower text) "cloud_devops", ?_, ?_, ?_⟩
    · rw [extract_lookup_char, if_pos (by decide)]
      unfold taxonomyCategoryResult
      rw [if_neg htext]
    · rw [mem_taxonomyMatches]
      refine ⟨mem_allSkillNames _ (by decide), by decide, ?_⟩
      rw [hasWordMatch_iff "kubernetes" (pyLower text) 'k' 's' (by decide) (by decide)]
      have hsplit : ("kubernetes and docker".data : List Char) =
          "kubernetes".data ++ (' ' :: "and docker".data) := by decide
      refine ⟨pre, ' ' :: ("and docker".data ++ post), ?_, hb,
        (by decide : endBoundaryOk 's' (some ' ') = true)⟩
      rw [heq, hsplit]
      simp
    · rw [mem_taxonomyMatches]
      refine ⟨mem_allSkillNames _ (by decide), by decide, ?_⟩
      rw [hasWordMatch_iff "docker" (pyLower text) 'd' 'r' (by decide) (by decide)]
      have hsplit : ("kubernetes and docker".data : List Char) =
          "kubernetes and ".data ++ "docker".data := by decide
      refine ⟨pre ++ "kubernetes and ".data, post, ?_, ?_, he⟩
      · rw [heq, hsplit]
        simp
      · rw [List.getLast?_append_of_ne_nil pre (by decide :
          ("kubernetes and ".data : List Char) ≠ [])]
        decide
  · rintro ⟨pre, post, heq, hb, he⟩ hnot
    have htext : text ≠ "" := hne pre _ post (by decide) heq
    constructor
    · refine ⟨taxonomyMatches (pyLower text) "cloud_devops", ?_, ?_⟩
      · rw [extract_lookup_char, if_pos (by decide)]
        unfold taxonomyCategoryResult
        rw [if_neg htext]
      · rw [mem_taxonomyMatches]
        refine ⟨mem_allSkillNames _ (by decide), by decide, ?_⟩
        rw [hasWordMatch_iff "postgres" (pyLower text) 'p' 's' (by decide) (by decide)]
        exact ⟨pre, post, heq, hb, he⟩
    · intro cat l hl hmem
      rw [extract_lookup_char] at hl
      split at hl
      · cases hl
        unfold taxonomyCategoryResult at hmem
        rw [if_neg htext] at hmem
        rw [mem_taxonomyMatches] at hmem
        obtain ⟨-, -, hmatch⟩ := hmem
        rw [hasWordMatch_iff "postgresql" (pyLower text) 'p' 'l'
          (by decide) (by decide)] at hmatch
        exact hnot hmatch
      · cases hl

/-- Witness for C6 at a concrete text containing "Kubernetes and Docker" as
whole words. -/
theorem taxonomy_matcher_spec_witness :
    ∃ l, lookupAssoc (extractSkillsTaxonomy "Deploy Kubernetes and Docker")
        "cloud_devops" = some l ∧
      "kubernetes" ∈ l ∧ "docker" ∈ l :=
  (taxonomy_matcher_spec "Deploy Kubernetes and Docker").2.1
    ⟨"deploy ".data, [], by decide, by decide, by decide⟩

/-! ## Section segmenter (JobSectionParser.parse_sections, skill_extractor.py
224-297)

The per-section heading regexes are precompiled `re` patterns; their
`finditer` spans are external input here, so the parser is embedded over a
parameter mapping each section label to its pattern matchers, each matcher
returning the (start, end) spans it finds in the text in document order.
`_clean_section` (three regex substitutions) is likewise a parameter.  The
boundary collection, stable sort by start offset, content slicing between
consecutive boundaries, and longest-content-wins dict update are the
repository's own algorithm and are embedded directly. -/

/-- One `(match.start(), match.end(), section)` triple
(skill_extractor.py 269). -/
structure Boundary where
  start : Nat
  stop : Nat
  label : String

/-- The boundary collection loop (skill_extractor.py 265-269): every match
of every pattern of every section, in section/pattern/match order. -/
def collectBoundaries
    (patterns : List (String × List (String → List (Nat × Nat))))
    (text : String) : List Boundary :=
  patterns.foldr (fun p acc =>
    (p.2.foldr (fun m acc2 =>
      (m text).map (fun sp => ⟨sp.1, sp.2, p.1⟩) ++ acc2) []) ++ acc) []

/-- `boundaries.sort(key=lambda x: x[0])` (skill_extractor.py 272): a stable
sort by start offset. -/
def sortBoundaries (bs : List Boundary) : List Boundary :=
  List.insertionSort (fun a b => a.start ≤ b.start) bs

/-- The content extraction loop (skill_extractor.py 275-281): for each
boundary, the text from its end offset to the next boundary's start (or the
end of text), stripped and cleaned. -/
def sectionContents (clean : String → String) (text : String) :
    List Boundary → List (String × String)
  | [] => []
  | b :: rest =>
    let nextStart :=
      match rest with
      | [] => text.data.length
      | b2 :: _ => b2.start
    (b.label, clean (pyStrip (pySlice text b.stop nextStart))) ::
      sectionContents clean text rest

/-- The dict update (skill_extractor.py 283-284): store a nonempty content
when the label is new or the content is strictly longer than the recorded
one. -/
def updateSections :
    List (String × String) → List (String × String) → List (String × String)
  | acc, [] => acc
  | acc, (lbl, c) :: rest =>
    if (!(c == "")) && (match lookupAssoc acc lbl with
        | none => true
        | some prev => decide (prev.data.length < c.data.length)) then
      updateSections (updateOrAppend acc lbl c) rest
    else updateSections acc rest

/-- `JobSectionParser.parse_sections` (skill_extractor.py 256-286). -/
def parseSections
    (patterns : List (String × List (String → List (Nat × Nat))))
    (clean : String → String) (text : String) : List (String × String) :=
  if text = "" then []
  else
    updateSections []
      (sectionContents clean text (sortBoundaries (collectBoundaries patterns text)))

/-- The net effect of one dict-update step on one label's recorded value. -/
def keepLonger (cur : Option String) (c : String) : Option String :=
  match cur with
  | none => some c
  | some prev => if prev.data.length < c.data.length then some c else cur

/-! ### Segmenter lemmas (claims C7 and C8) -/

theorem lookupAssoc_updateOrAppend {α : Type} (l : List (String × α))
    (k key : String) (v : α) :
    lookupAssoc (updateOrAppend l k v) key =
      if k = key then some v else lookupAssoc l key := by
  induction l with
  | nil =>
    by_cases h : k = key <;> simp [updateOrAppend, lookupAssoc, h]
  | cons p rest ih =>
    obtain ⟨k', v'⟩ := p
    by_cases hk : k' = k
    · subst hk
      by_cases h : k' = key <;> simp [updateOrAppend, lookupAssoc, h]
    · by_cases h : k' = key
      · subst h
        have : ¬ k = k' := fun hc => hk hc.symm
        simp [updateOrAppend, lookupAssoc, hk, this]
      · simp [updateOrAppend, lookupAssoc, hk, h, ih]

theorem updateSections_lookup (lbl : String) (items : List (String × String)) :
    ∀ acc, lookupAssoc (updateSections acc items) lbl =
      ((((items.filter (fun p => p.1 == lbl)).map Prod.snd).filter
        (fun c => !(c == ""))).foldl keepLonger (lookupAssoc acc lbl)) := by
  induction items with
  | nil => intro acc; rfl
  | cons p rest ih =>
    intro acc
    obtain ⟨lbl', c⟩ := p
    by_cases hlbl : lbl' = lbl
    · subst hlbl
      by_cases hc : c = ""
      · subst hc
        rw [updateSections, if_neg (by simp)]
        rw [ih acc]
        simp
      · have hcb : (!(c == "")) = true := by simp [hc]
        rw [updateSections]
        simp only [hcb, Bool.true_and]
        have hfilters :
            ((((lbl', c) :: rest).filter (fun p => p.1 == lbl')).map
              Prod.snd).filter (fun c => !(c == "")) =
            c :: (((rest.filter (fun p => p.1 == lbl')).map Prod.snd).filter
              (fun c => !(c == ""))) := by
          simp [List.filter_cons, hcb]
        cases hcur : lookupAssoc acc lbl' with
        | none =>
          rw [if_pos rfl]
          rw [ih _, hfilters, List.foldl_cons, lookupAssoc_updateOrAppend,
            if_pos rfl]
          rfl
        | some prev =>
          by_cases hlt : prev.data.length < c.data.length
          · rw [if_pos (by simpa using hlt)]
            rw [ih _, hfilters, List.foldl_cons, lookupAssoc_updateOrAppend,
              if_pos rfl]
            have hk : keepLonger (some prev) c = some c := by
              simp only [keepLonger]
              rw [if_pos hlt]
            rw [hk]
          · rw [if_neg (by simpa using hlt)]
            rw [ih acc, hfilters, List.foldl_cons, hcur]
            have hk : keepLonger (some prev) c = some prev := by
              simp only [keepLonger]
              rw [if_neg hlt]
            rw [hk]
    · have hlb : ((lbl' : String) == lbl) = false := by
        simp [hlbl]
      rw [updateSections]
      split
      · rw [ih _, lookupAssoc_updateOrAppend, if_neg hlbl]
        simp [List.filter_cons, hlb]
      · rw [ih acc]
        simp [List.filter_cons, hlb]

theorem keepLonger_foldl_max (cs : List String) :
    ∀ (cur : Option String) (c : String), cs.foldl keepLonger cur = some c →
      (cur = some c ∨ c ∈ cs) ∧
      (∀ d ∈ cs, d.data.length ≤ c.data.length) ∧
      (∀ p, cur = some p → p.data.length ≤ c.data.length) := by
  induction cs with
  | nil =>
    intro cur c h
    refine ⟨Or.inl h, by simp, fun p hp => ?_⟩
    rw [hp] at h
    cases h
    exact le_refl _
  | cons d ds ih =>
    intro cur c h
    rw [List.foldl_cons] at h
    obtain ⟨h1, h2, h3⟩ := ih (keepLonger cur d) c h
    cases cur with
    | none =>
      have hd : d.data.length ≤ c.data.length := h3 d rfl
      refine ⟨?_, ?_, by rintro p ⟨⟩⟩
      · rcases h1 with h1 | h1
        · injection h1 with h1
          exact Or.inr (h1 ▸ List.mem_cons_self d ds)
        · exact Or.inr (List.mem_cons_of_mem d h1)
      · intro e he
        rcases List.mem_cons.mp he with he | he
        · exact he ▸ hd
        · exact h2 e he
    | some prev =>
      by_cases hlt : prev.data.length < c.data.length ∨ True
      · clear hlt
        by_cases hpd : prev.data.length < d.data.length
        · have hkeep : keepLonger (some prev) d = some d := by
            simp only [keepLonger]
            rw [if_pos hpd]
          rw [hkeep] at h1 h3
          have hd : d.data.length ≤ c.data.length := h3 d rfl
          refine ⟨?_, ?_, ?_⟩
          · rcases h1 with h1 | h1
            · injection h1 with h1
              exact Or.inr (h1 ▸ List.mem_cons_self d ds)
            · exact Or.inr (List.mem_cons_of_mem d h1)
          · intro e he
            rcases List.mem_cons.mp he with he | he
            · exact he ▸ hd
            · exact h2 e he
          · rintro p ⟨⟩
            exact le_trans (le_of_lt hpd) hd
        · have hkeep : keepLonger (some prev) d = some prev := by
            simp only [keepLonger]
            rw [if_neg hpd]
          rw [hkeep] at h1 h3
          have hprev : prev.data.length ≤ c.data.length := h3 prev rfl
          have hd : d.data.length ≤ c.data.length :=
            le_trans (Nat.le_of_not_lt hpd) hprev
          refine ⟨?_, ?_, ?_⟩
          · rcases h1 with h1 | h1
            · exact Or.inl h1
            · exact Or.inr (List.mem_cons_of_mem d h1)
          · intro e he
            rcases List.mem_cons.mp he with he | he
            · exact he ▸ hd
            · exact h2 e he
          · rintro p ⟨⟩
            exact hprev
      · exact absurd (Or.inr trivial) hlt

theorem keepLonger_foldl_stable (cs : List String) :
    ∀ c : String, (∀ d ∈ cs, d.data.length ≤ c.data.length) →
      cs.foldl keepLonger (some c) = some c := by
  induction cs with
  | nil => intro c _; rfl
  | cons d ds ih =>
    intro c hall
    rw [List.foldl_cons]
    have hd : ¬ c.data.length < d.data.length :=
      Nat.not_lt.mpr (hall d (List.mem_cons_self d ds))
    have hkeep : keepLonger (some c) d = some c := by
      simp only [keepLonger]
      rw [if_neg hd]
    rw [hkeep]
    exact ih c (fun e he => hall e (List.mem_cons_of_mem d he))

/-- Claim C7: when the same section label is matched at several heading
positions, the recorded content for the label is the longest of its
extracted nonempty contents — the parse result for each label equals the
left fold of "replace only by strictly longer" over that label's extracted
contents in document order; that fold yields a maximal-length element, and a
later content shorter than or equal to the recorded one never overwrites
it. -/
theorem section_longest_wins
    (patterns : List (String × List (String → List (Nat × Nat))))
    (clean : String → String) (text : String) (lbl : String)
    (htext : text ≠ "") :
    lookupAssoc (parseSections patterns clean text) lbl =
      ((((sectionContents clean text
            (sortBoundaries (collectBoundaries patterns text))).filter
          (fun p => p.1 == lbl)).map Prod.snd).filter
        (fun c => !(c == ""))).foldl keepLonger none ∧
    (∀ (cs : List String) (c : String), cs.foldl keepLonger none = some c →
      c ∈ cs ∧ ∀ d ∈ cs, d.data.length ≤ c.data.length) ∧
    (∀ (cs : List String) (c : String),
      (∀ d ∈ cs, d.data.length ≤ c.data.length) →
      cs.foldl keepLonger (some c) = some c) := by
  refine ⟨?_, ?_, keepLonger_foldl_stable⟩
  · rw [parseSections, if_neg htext, updateSections_lookup]
    rfl
  · intro cs c h
    obtain ⟨h1, h2, -⟩ := keepLonger_foldl_max cs none c h
    rcases h1 with h1 | h1
    · cases h1
    · exact ⟨h1, h2⟩

/-- Witness for C7 at a concrete text with one label matched twice, the
later extracted content being shorter: the longer first content is kept. -/
theorem section_longest_wins_witness :
    lookupAssoc
      (parseSections
        [("responsibilities", [fun _ => [(0, 2), (14, 16)]])]
        (fun s => s) "H: aaaaaaaaaa H: bbb")
      "responsibilities" = some "aaaaaaaaaa" := by
  rw [(section_longest_wins
      [("responsibilities", [fun _ => [(0, 2), (14, 16)]])]
      (fun s => s) "H: aaaaaaaaaa H: bbb" "responsibilities" (by decide)).1]
  rfl

theorem foldr_spans_nil (text lbl : String)
    (ms : List (String → List (Nat × Nat)))
    (h : ∀ m ∈ ms, m text = []) :
    ms.foldr (fun m acc2 =>
      (m text).map (fun sp => (⟨sp.1, sp.2, lbl⟩ : Boundary)) ++ acc2) [] = [] := by
  induction ms with
  | nil => rfl
  | cons m rest ih =>
    rw [List.foldr_cons, h m (List.mem_cons_self m rest)]
    rw [List.map_nil, List.nil_append]
    exact ih (fun n hn => h n (List.mem_cons_of_mem m hn))

theorem collectBoundaries_nil (text : String) :
    ∀ (patterns : List (String × List (String → List (Nat × Nat)))),
    (∀ p ∈ patterns, ∀ m ∈ p.2, m text = []) →
    collectBoundaries patterns text = [] := by
  intro patterns
  induction patterns with
  | nil => intro h; rfl
  | cons p rest ih =>
    intro h
    rw [collectBoundaries, List.foldr_cons,
      foldr_spans_nil text p.1 p.2 (h p (List.mem_cons_self p rest)),
      List.nil_append]
    exact ih (fun q hq m hm => h q (List.mem_cons_of_mem p hq) m hm)

/-- Claim C8: the section segmenter is total — the embedding is defined on
every input string and every matcher behaviour — and returns the empty
mapping for empty input as well as for any input on which no heading pattern
of any section matches. -/
theorem parse_sections_total_empty
    (patterns : List (String × List (String → List (Nat × Nat))))
    (clean : String → String) (text : String) :
    parseSections patterns clean "" = [] ∧
    ((∀ p ∈ patterns, ∀ m ∈ p.2, m text = []) →
      parseSections patterns clean text = []) := by
  constructor
  · rw [parseSections, if_pos rfl]
  · intro h
    by_cases htext : text = ""
    · rw [htext, parseSections, if_pos rfl]
    · rw [parseSections, if_neg htext, collectBoundaries_nil text patterns h]
      rfl

/-- Witness for C8 at a concrete heading-free text. -/
theorem parse_sections_total_empty_witness :
    parseSections [("responsibilities", [fun _ => []])] (fun s => s)
      "no headings at all" = [] :=
  (parse_sections_total_empty [("responsibilities", [fun _ => []])]
      (fun s => s) "no headings at all").2
    (by
      intro p hp m hm
      rw [List.mem_singleton] at hp
      subst hp
      rw [List.mem_singleton] at hm
      subst hm
      rfl)

end FdeTracker
